import Mathlib

/-!
Verification of the recipe-catalog core (`src/app1.py`): the binary search
tree index (`BinarySearchTree`), the repository-style mutation handlers of
the Streamlit form code (add / edit / delete / initial load), and the JSON
persistence round trip.

Python string primitives are embedded explicitly: `pyLower` models
`str.lower` (ASCII case folding, as Lean's `Char.toLower` does), `pyStrip`
models `str.strip` (drop whitespace from both ends), `pySplitlines` models
`str.splitlines` (split at \n, \r and \r\n, no trailing empty line).
Python `<` on strings is code-point lexicographic; it is embedded as the
structural comparison `pyLt` below.
-/

namespace RecipeApp

/-- A recipe record, as the dicts stored in `st.session_state.recipes`:
`{"name": ..., "ingredients": [...], "instructions": [...]}`. -/
structure Recipe where
  name : String
  ingredients : List String
  instructions : List String
deriving DecidableEq

/-- Model of Python `str.lower` (`Char.toLower` folds ASCII uppercase). -/
def pyLower (s : String) : String :=
  String.mk (s.data.map Char.toLower)

/-- Model of Python `str.strip`: remove leading and trailing whitespace. -/
def pyStrip (s : String) : String :=
  String.mk (((s.data.dropWhile Char.isWhitespace).reverse.dropWhile
    Char.isWhitespace).reverse)

/-- Lexicographic comparison of character lists: compare heads by code
point, equal heads recurse, and a proper prefix is smaller. -/
def pyCharsLt : List Char → List Char → Bool
  | _, [] => false
  | [], _ :: _ => true
  | a :: as, b :: bs =>
    if a < b then true else if b < a then false else pyCharsLt as bs

/-- Model of Python `<` on strings: code-point lexicographic order. -/
def pyLt (a b : String) : Bool :=
  pyCharsLt a.data b.data

/-- Helper for `pySplitlines`: walk the characters, accumulating the current
line in reverse; a line ends at `\r\n`, `\r` or `\n`; characters left at the
end form a final line unless none are left. -/
def pySplitlinesAux : List Char → List Char → List String
  | [], acc => if acc = [] then [] else [String.mk acc.reverse]
  | '\r' :: '\n' :: rest, acc => String.mk acc.reverse :: pySplitlinesAux rest []
  | '\r' :: rest, acc => String.mk acc.reverse :: pySplitlinesAux rest []
  | '\n' :: rest, acc => String.mk acc.reverse :: pySplitlinesAux rest []
  | c :: rest, acc => pySplitlinesAux rest (c :: acc)

/-- Model of Python `str.splitlines`. -/
def pySplitlines (s : String) : List String :=
  pySplitlinesAux s.data []

/-- `[line.strip() for line in text.splitlines() if line.strip()]`, the
normalisation both the add form and the edit form apply to the ingredient
and instruction text areas. -/
def normalizeLines (text : String) : List String :=
  (pySplitlines text).filterMap
    (fun line => if pyStrip line = "" then none else some (pyStrip line))

/-- Node-labelled binary tree of recipes, as `TreeNode` (recipe, left,
right); `Tree.leaf` stands for Python's `None` child. -/
inductive Tree where
  | leaf : Tree
  | node : Tree → Recipe → Tree → Tree
deriving DecidableEq

/-- `BinarySearchTree.insert` / `_insert_recursively`: compare lowercased
names; strictly smaller goes left, otherwise (equal or greater) right. -/
def Tree.insert : Tree → Recipe → Tree
  | .leaf, r => .node .leaf r .leaf
  | .node l v rt, r =>
    if pyLt (pyLower r.name) (pyLower v.name) then .node (l.insert r) v rt
    else .node l v (rt.insert r)

/-- `BinarySearchTree._search_recursively`, on an already-lowercased key. -/
def Tree.searchLower : Tree → String → Option Recipe
  | .leaf, _ => none
  | .node l v rt, k =>
    if pyLower v.name = k then some v
    else if pyLt k (pyLower v.name) then l.searchLower k
    else rt.searchLower k

/-- `BinarySearchTree.search`: lowercase the query, then walk the tree. -/
def Tree.search (t : Tree) (name : String) : Option Recipe :=
  t.searchLower (pyLower name)

/-- Number of nodes `_search_recursively` visits before terminating (each
visited node is one comparison step; an empty subtree costs nothing). -/
def Tree.searchStepsLower : Tree → String → Nat
  | .leaf, _ => 0
  | .node l v rt, k =>
    if pyLower v.name = k then 1
    else if pyLt k (pyLower v.name) then 1 + l.searchStepsLower k
    else 1 + rt.searchStepsLower k

/-- Comparison steps of `BinarySearchTree.search` on a raw query. -/
def Tree.searchSteps (t : Tree) (name : String) : Nat :=
  t.searchStepsLower (pyLower name)

/-- Depth of the tree (number of nodes on the longest root-to-leaf path). -/
def Tree.depth : Tree → Nat
  | .leaf => 0
  | .node l _ rt => 1 + max l.depth rt.depth

/-- A tree all of whose left children are empty (right-leaning chain). -/
def Tree.isRightChain : Tree → Bool
  | .leaf => true
  | .node .leaf _ rt => rt.isRightChain
  | .node (.node _ _ _) _ _ => false

/-- In-order list of the recipes stored in a tree. -/
def Tree.toList : Tree → List Recipe
  | .leaf => []
  | .node l v rt => l.toList ++ v :: rt.toList

/-- `build_tree`: insert every recipe of the collection, in order, into a
fresh tree. -/
def build_tree (recipes : List Recipe) : Tree :=
  recipes.foldl Tree.insert Tree.leaf

/-- The recoverable failures the handlers report via `st.error`. -/
inductive RepoError where
  | invalidName
  | duplicateName
  | notFound
deriving DecidableEq

/-- Session state owned by the repository: the canonical collection, the
derived index tree, and the content last written to the store. -/
structure RepoState where
  recipes : List Recipe
  tree : Tree
  saved : List Recipe
deriving DecidableEq

/-- The add-recipe form handler (`add_recipe_form`): reject an
empty-after-strip name, then reject a case-insensitive duplicate (the raw
submitted name is lowercased for this check, as in the source), otherwise
append the normalised recipe, rebuild the tree and save. -/
def createOp (s : RepoState) (newName ingText insText : String) :
    RepoState × Option RepoError :=
  if pyStrip newName = "" then (s, some .invalidName)
  else if s.recipes.any (fun r => pyLower r.name == pyLower newName) then
    (s, some .duplicateName)
  else
    let rs := s.recipes ++
      [⟨pyStrip newName, normalizeLines ingText, normalizeLines insText⟩]
    (⟨rs, build_tree rs, rs⟩, none)

/-- Replace the first recipe whose name equals `oldName` exactly (the
`for ... if r["name"] == ...: ...; break` loop of the edit handler). -/
def replaceFirst : List Recipe → String → Recipe → List Recipe
  | [], _, _ => []
  | r :: rest, oldName, newR =>
    if r.name = oldName then newR :: rest
    else r :: replaceFirst rest oldName newR

/-- The edit-recipe form handler (`edit_recipe_form`): reject an
empty-after-strip name; reject a duplicate when the stripped new name
differs case-insensitively from the old one and collides with an existing
recipe; otherwise replace the first exact-name match in place (a missing
`oldName` leaves the collection untouched and reports nothing), rebuild the
tree and save. -/
def updateOp (s : RepoState) (oldName editName ingText insText : String) :
    RepoState × Option RepoError :=
  if pyStrip editName = "" then (s, some .invalidName)
  else if pyLower (pyStrip editName) ≠ pyLower oldName ∧
      s.recipes.any (fun r => pyLower r.name == pyLower (pyStrip editName)) then
    (s, some .duplicateName)
  else
    let rs := replaceFirst s.recipes oldName
      ⟨pyStrip editName, normalizeLines ingText, normalizeLines insText⟩
    (⟨rs, build_tree rs, rs⟩, none)

/-- The delete button handler: keep exactly the recipes whose name differs
(case-sensitively) from the selected name, rebuild the tree and save; it
never reports an error. -/
def deleteOp (s : RepoState) (name : String) : RepoState × Option RepoError :=
  let rs := s.recipes.filter (fun r => r.name ≠ name)
  (⟨rs, build_tree rs, rs⟩, none)

/-- `init_session_state`: adopt the records supplied by the persistence
layer as the collection and build the tree from them. -/
def loadOp (records : List Recipe) : RepoState :=
  ⟨records, build_tree records, records⟩

/-- The state of a fresh session over an empty store. -/
def initState : RepoState :=
  ⟨[], build_tree [], []⟩

/-- Run a sequence of add-form submissions `(name, ingredients text,
instructions text)` from the fresh state, keeping the state each handler
leaves behind. -/
def runCreates (ops : List (String × String × String)) : RepoState :=
  ops.foldl (fun s p => (createOp s p.1 p.2.1 p.2.2).1) initState

/-- The case-insensitive linear scan over the collection that the index is
measured against: first recipe whose lowercased name equals the lowercased
query. -/
def linearScan (rs : List Recipe) (name : String) : Option Recipe :=
  rs.find? (fun x => pyLower x.name == pyLower name)

/-- Index/collection consistency: the tree is exactly the rebuilt tree of
the collection, and searching any stored recipe's exact name through the
tree agrees with the linear scan. -/
def Consistent (s : RepoState) : Prop :=
  s.tree = build_tree s.recipes ∧
  ∀ r ∈ s.recipes, s.tree.search r.name = linearScan s.recipes r.name

/-! ### Core lemmas about the tree -/

/-- Effect of one insertion on a search: the freshly inserted recipe is
found exactly when its key is searched and the key was absent before;
every other search is unchanged. -/
theorem searchLower_insert (t : Tree) (r : Recipe) (k : String) :
    (t.insert r).searchLower k =
      if t.searchLower k = none ∧ k = pyLower r.name then some r
      else t.searchLower k := by
  induction t with
  | leaf =>
    by_cases h : k = pyLower r.name
    · simp [Tree.insert, Tree.searchLower, h]
    · simp [Tree.insert, Tree.searchLower, h, Ne.symm h, ite_self]
  | node l v rt ihl ihr =>
    simp only [Tree.insert]
    by_cases hc : pyLt (pyLower r.name) (pyLower v.name)
    · simp only [if_pos hc]
      by_cases hv : pyLower v.name = k
      · simp [Tree.searchLower, hv]
      · by_cases hk : pyLt k (pyLower v.name)
        · simp [Tree.searchLower, hv, hk, ihl]
        · have hne : k ≠ pyLower r.name := by
            intro he
            subst he
            exact hk hc
          simp [Tree.searchLower, hv, hk, hne]
    · simp only [if_neg hc]
      by_cases hv : pyLower v.name = k
      · simp [Tree.searchLower, hv]
      · by_cases hk : pyLt k (pyLower v.name)
        · have hne : k ≠ pyLower r.name := by
            intro he
            subst he
            exact hc hk
          simp [Tree.searchLower, hv, hk, hne]
        · simp [Tree.searchLower, hv, hk, ihr]

/-- Searching a tree obtained by inserting a whole list: the pre-existing
tree wins, otherwise the first list element with the searched key. -/
theorem searchLower_foldl (rs : List Recipe) (t : Tree) (k : String) :
    (rs.foldl Tree.insert t).searchLower k =
      (t.searchLower k).or (rs.find? (fun x => pyLower x.name == k)) := by
  induction rs generalizing t with
  | nil => cases h : t.searchLower k <;> simp [h]
  | cons x rs ih =>
    simp only [List.foldl_cons]
    rw [ih, searchLower_insert]
    cases h : t.searchLower k with
    | some y => simp [h]
    | none =>
      by_cases hx : k = pyLower x.name
      · simp [h, hx, List.find?_cons]
      · simp [h, hx, List.find?_cons, Ne.symm hx]

/-- `build_tree` followed by a lowercased search behaves exactly like the
first case-insensitive match of a linear scan over the collection. -/
theorem search_build_tree (rs : List Recipe) (k : String) :
    (build_tree rs).searchLower k = rs.find? (fun x => pyLower x.name == k) := by
  have h := searchLower_foldl rs Tree.leaf k
  simpa [build_tree, Tree.searchLower] using h

/-- On a collection with pairwise case-insensitively distinct names, the
linear scan for a stored recipe's key returns that very recipe. -/
theorem find?_eq_of_pairwise (rs : List Recipe)
    (h : rs.Pairwise (fun a b => pyLower a.name ≠ pyLower b.name))
    (r : Recipe) (hr : r ∈ rs) :
    rs.find? (fun x => pyLower x.name == pyLower r.name) = some r := by
  induction rs with
  | nil => cases hr
  | cons x rs ih =>
    rcases List.mem_cons.mp hr with he | hm
    · subst he
      simp [List.find?_cons]
    · have hx : pyLower x.name ≠ pyLower r.name :=
        (List.pairwise_cons.mp h).1 r hm
      have hrec := ih (List.pairwise_cons.mp h).2 hm
      simp [List.find?_cons, hx, hrec]

/-- Any state whose tree is the rebuilt tree of its collection satisfies
the index/collection consistency predicate. -/
theorem consistent_build (rs saved : List Recipe) :
    Consistent ⟨rs, build_tree rs, saved⟩ := by
  refine ⟨rfl, ?_⟩
  intro r _
  simp only [Tree.search, linearScan]
  exact search_build_tree rs (pyLower r.name)

/-- `replaceFirst` with a name nothing matches leaves the list unchanged. -/
theorem replaceFirst_of_not_mem (rs : List Recipe) (oldName : String)
    (newR : Recipe) (h : ∀ r ∈ rs, r.name ≠ oldName) :
    replaceFirst rs oldName newR = rs := by
  induction rs with
  | nil => rfl
  | cons x rs ih =>
    simp only [replaceFirst]
    rw [if_neg (h x (List.mem_cons_self x rs)),
      ih (fun r hr => h r (List.mem_cons_of_mem x hr))]

/-- Running a list of add-form submissions whose names are already
stripped, non-empty, pairwise case-insensitively distinct, and fresh for
the starting collection appends exactly the corresponding normalised
recipes, with tree and store rebuilt from the final collection. -/
theorem foldl_createOp (ops : List (String × String × String))
    (rs : List Recipe)
    (hok : ∀ p ∈ ops, pyStrip p.1 = p.1 ∧ p.1 ≠ "")
    (hfresh : ∀ p ∈ ops, ∀ r ∈ rs, pyLower r.name ≠ pyLower p.1)
    (hdist : ops.Pairwise (fun a b => pyLower a.1 ≠ pyLower b.1)) :
    ops.foldl (fun s p => (createOp s p.1 p.2.1 p.2.2).1) ⟨rs, build_tree rs, rs⟩ =
      ⟨rs ++ ops.map
          (fun p => ⟨p.1, normalizeLines p.2.1, normalizeLines p.2.2⟩),
        build_tree (rs ++ ops.map
          (fun p => ⟨p.1, normalizeLines p.2.1, normalizeLines p.2.2⟩)),
        rs ++ ops.map
          (fun p => ⟨p.1, normalizeLines p.2.1, normalizeLines p.2.2⟩)⟩ := by
  induction ops generalizing rs with
  | nil => simp
  | cons p ops ih =>
    have hp := hok p (List.mem_cons_self p ops)
    have hany : (rs.any (fun r => pyLower r.name == pyLower p.1)) = false := by
      rw [List.any_eq_false]
      intro r hr
      simp only [beq_iff_eq]
      exact hfresh p (List.mem_cons_self p ops) r hr
    have hstep : (createOp ⟨rs, build_tree rs, rs⟩ p.1 p.2.1 p.2.2).1 =
        ⟨rs ++ [⟨p.1, normalizeLines p.2.1, normalizeLines p.2.2⟩],
          build_tree (rs ++ [⟨p.1, normalizeLines p.2.1, normalizeLines p.2.2⟩]),
          rs ++ [⟨p.1, normalizeLines p.2.1, normalizeLines p.2.2⟩]⟩ := by
      simp [createOp, hp.1, hp.2, hany]
    have hok2 : ∀ q ∈ ops, pyStrip q.1 = q.1 ∧ q.1 ≠ "" :=
      fun q hq => hok q (List.mem_cons_of_mem p hq)
    have hfresh2 : ∀ q ∈ ops,
        ∀ r ∈ rs ++ [(⟨p.1, normalizeLines p.2.1, normalizeLines p.2.2⟩ : Recipe)],
        pyLower r.name ≠ pyLower q.1 := by
      intro q hq r hr
      rcases List.mem_append.mp hr with hold | hnew
      · exact hfresh q (List.mem_cons_of_mem p hq) r hold
      · have : r = ⟨p.1, normalizeLines p.2.1, normalizeLines p.2.2⟩ :=
          List.mem_singleton.mp hnew
        subst this
        exact (List.pairwise_cons.mp hdist).1 q hq
    have hdist2 : ops.Pairwise (fun a b => pyLower a.1 ≠ pyLower b.1) :=
      (List.pairwise_cons.mp hdist).2
    simp only [List.foldl_cons]
    rw [hstep, ih _ hok2 hfresh2 hdist2]
    simp

/-! ### Claims -/

/-- Claim C1: for every sequence of create operations whose (stripped,
non-empty) names are pairwise case-insensitively distinct, each created
recipe is afterwards returned by the index search when queried with any
casing of its exact name. -/
theorem create_search_any_casing (ops : List (String × String × String))
    (hdist : ops.Pairwise (fun a b => pyLower a.1 ≠ pyLower b.1))
    (htrim : ∀ p ∈ ops, pyStrip p.1 = p.1)
    (hne : ∀ p ∈ ops, p.1 ≠ "")
    (r : Recipe) (hr : r ∈ (runCreates ops).recipes)
    (q : String) (hq : pyLower q = pyLower r.name) :
    (runCreates ops).tree.search q = some r := by
  have hchar := foldl_createOp ops []
    (fun p hp => ⟨htrim p hp, hne p hp⟩)
    (fun p _ r hr => absurd hr (List.not_mem_nil r)) hdist
  have hrun : runCreates ops =
      ⟨ops.map (fun p => ⟨p.1, normalizeLines p.2.1, normalizeLines p.2.2⟩),
        build_tree (ops.map
          (fun p => ⟨p.1, normalizeLines p.2.1, normalizeLines p.2.2⟩)),
        ops.map (fun p => ⟨p.1, normalizeLines p.2.1, normalizeLines p.2.2⟩)⟩ := by
    unfold runCreates initState
    simpa using hchar
  rw [hrun] at hr ⊢
  simp only [Tree.search]
  rw [hq, search_build_tree]
  refine find?_eq_of_pairwise _ ?_ r hr
  rw [List.pairwise_map]
  exact hdist

/-- Concrete run of claim C1: two distinct creates, the first recipe is
found under a fully uppercased query. -/
theorem create_search_any_casing_witness :
    ([("Tea", "", ""), ("Milk", "", "")] :
        List (String × String × String)).Pairwise
      (fun a b => pyLower a.1 ≠ pyLower b.1) ∧
    (∀ p ∈ ([("Tea", "", ""), ("Milk", "", "")] :
        List (String × String × String)), pyStrip p.1 = p.1) ∧
    (∀ p ∈ ([("Tea", "", ""), ("Milk", "", "")] :
        List (String × String × String)), p.1 ≠ "") ∧
    (⟨"Tea", [], []⟩ : Recipe) ∈
      (runCreates [("Tea", "", ""), ("Milk", "", "")]).recipes ∧
    pyLower "TEA" = pyLower "Tea" ∧
    (runCreates [("Tea", "", ""), ("Milk", "", "")]).tree.search "TEA" =
      some ⟨"Tea", [], []⟩ := by
  refine ⟨by decide, by decide, by decide, by decide, by decide, ?_⟩
  exact create_search_any_casing _ (by decide) (by decide) (by decide)
    _ (by decide) _ (by decide)

/-- Claim C2: immediately after any mutating repository operation (create,
update, delete, load) completes, the index is consistent with the
collection — the tree equals the wholesale rebuild of the collection
(never partially updated), and searching any stored recipe's exact name
agrees with a linear scan — while a failing create or update leaves the
state exactly as it was. -/
theorem mutations_leave_index_consistent :
    (∀ records, Consistent (loadOp records)) ∧
    (∀ s n i j, ((createOp s n i j).2 = none → Consistent (createOp s n i j).1) ∧
      ((createOp s n i j).2 ≠ none → (createOp s n i j).1 = s)) ∧
    (∀ s o n i j,
      ((updateOp s o n i j).2 = none → Consistent (updateOp s o n i j).1) ∧
      ((updateOp s o n i j).2 ≠ none → (updateOp s o n i j).1 = s)) ∧
    (∀ s n, (deleteOp s n).2 = none ∧ Consistent (deleteOp s n).1) := by
  refine ⟨fun records => consistent_build records records, ?_, ?_, ?_⟩
  · intro s n i j
    by_cases h1 : pyStrip n = ""
    · constructor
      · intro h
        simp [createOp, h1] at h
      · intro _
        simp [createOp, h1]
    · by_cases h2 : s.recipes.any (fun r => pyLower r.name == pyLower n)
      · constructor
        · intro h
          simp [createOp, h1, h2] at h
        · intro _
          simp [createOp, h1, h2]
      · constructor
        · intro _
          simp only [createOp, if_neg h1]
          rw [if_neg h2]
          exact consistent_build _ _
        · intro h
          simp [createOp, h1, h2] at h
  · intro s o n i j
    by_cases h1 : pyStrip n = ""
    · constructor
      · intro h
        simp [updateOp, h1] at h
      · intro _
        simp [updateOp, h1]
    · by_cases h2 : pyLower (pyStrip n) ≠ pyLower o ∧
          s.recipes.any (fun r => pyLower r.name == pyLower (pyStrip n))
      · constructor
        · intro h
          simp only [updateOp, if_neg h1, if_pos h2] at h
          cases h
        · intro _
          simp only [updateOp, if_neg h1, if_pos h2]
      · constructor
        · intro _
          simp only [updateOp, if_neg h1, if_neg h2]
          exact consistent_build _ _
        · intro h
          simp only [updateOp, if_neg h1, if_neg h2] at h
          cases h rfl
  · intro s n
    exact ⟨rfl, consistent_build _ _⟩

/-- Concrete runs of claim C2: a load and a successful create both leave a
consistent state. -/
theorem mutations_leave_index_consistent_witness :
    Consistent (loadOp [⟨"Tea", ["water"], []⟩]) ∧
    (createOp initState "Tea" "water" "steep").2 = none ∧
    Consistent (createOp initState "Tea" "water" "steep").1 := by
  refine ⟨mutations_leave_index_consistent.1 _, by decide, ?_⟩
  exact (mutations_leave_index_consistent.2.1 initState "Tea" "water" "steep").1
    (by decide)

/-- Claim C3 counterexample: the handler checks for an empty-after-strip
name before it checks for duplicates, so a whitespace-only proposed name
that matches an existing whitespace-only stored name case-insensitively is
rejected with the empty-name error, not the duplicate error. -/
theorem create_duplicate_counterexample :
    (∃ r ∈ ([⟨" ", [], []⟩] : List Recipe), pyLower r.name = pyLower " ") ∧
    (createOp ⟨[⟨" ", [], []⟩], build_tree [⟨" ", [], []⟩], [⟨" ", [], []⟩]⟩
        " " "" "").2 ≠ some RepoError.duplicateName ∧
    (createOp ⟨[⟨" ", [], []⟩], build_tree [⟨" ", [], []⟩], [⟨" ", [], []⟩]⟩
        " " "" "").2 = some RepoError.invalidName := by
  decide

/-- Claim C3 (amended): for every collection and every proposed recipe
whose name is non-empty after stripping and matches some existing recipe's
name case-insensitively, create fails with the duplicate-name error and
leaves the collection, the index and the store unchanged. -/
theorem create_duplicate_rejected (s : RepoState) (newName ing ins : String)
    (hne : pyStrip newName ≠ "")
    (hdup : ∃ r ∈ s.recipes, pyLower r.name = pyLower newName) :
    createOp s newName ing ins = (s, some RepoError.duplicateName) := by
  have hany : s.recipes.any (fun r => pyLower r.name == pyLower newName) = true := by
    rw [List.any_eq_true]
    obtain ⟨r, hr, he⟩ := hdup
    exact ⟨r, hr, by simp [he]⟩
  simp [createOp, hne, hany]

/-- Concrete run of claim C3: creating "pasta" over an existing "Pasta"
fails with the duplicate error and changes nothing. -/
theorem create_duplicate_rejected_witness :
    pyStrip "pasta" ≠ "" ∧
    (∃ r ∈ ([⟨"Pasta", [], []⟩] : List Recipe),
      pyLower r.name = pyLower "pasta") ∧
    createOp ⟨[⟨"Pasta", [], []⟩], build_tree [⟨"Pasta", [], []⟩],
        [⟨"Pasta", [], []⟩]⟩ "pasta" "" "" =
      (⟨[⟨"Pasta", [], []⟩], build_tree [⟨"Pasta", [], []⟩],
        [⟨"Pasta", [], []⟩]⟩, some RepoError.duplicateName) := by
  refine ⟨by decide, by decide, ?_⟩
  exact create_duplicate_rejected _ "pasta" "" "" (by decide) (by decide)

/-- Claim C4: insertion follows the stated discipline on lowercased names
(strictly smaller descends left, equal-or-greater descends right), and
inserting "A", "B", "C" in that order yields a strictly right-leaning
chain of depth 3 on which searching "A" takes 1 comparison step and
searching "C" takes 3. -/
theorem insert_discipline_and_chain :
    (∀ (l rt : Tree) (v x : Recipe),
      Tree.insert (.node l v rt) x =
        if pyLt (pyLower x.name) (pyLower v.name) then .node (l.insert x) v rt
        else .node l v (rt.insert x)) ∧
    build_tree [⟨"A", [], []⟩, ⟨"B", [], []⟩, ⟨"C", [], []⟩] =
      .node .leaf ⟨"A", [], []⟩
        (.node .leaf ⟨"B", [], []⟩ (.node .leaf ⟨"C", [], []⟩ .leaf)) ∧
    (build_tree [⟨"A", [], []⟩, ⟨"B", [], []⟩, ⟨"C", [], []⟩]).isRightChain
      = true ∧
    (build_tree [⟨"A", [], []⟩, ⟨"B", [], []⟩, ⟨"C", [], []⟩]).depth = 3 ∧
    (build_tree [⟨"A", [], []⟩, ⟨"B", [], []⟩, ⟨"C", [], []⟩]).searchSteps "A"
      = 1 ∧
    (build_tree [⟨"A", [], []⟩, ⟨"B", [], []⟩, ⟨"C", [], []⟩]).searchSteps "C"
      = 3 :=
  ⟨fun _ _ _ _ => rfl, by decide, by decide, by decide, by decide, by decide⟩

/-- Claim C5 counterexample: updating with an old name no recipe carries
does not fail — on the empty collection, updating "Tea" reports no error
at all (in particular not the not-found error). -/
theorem update_missing_counterexample :
    (∀ r ∈ initState.recipes, r.name ≠ "Tea") ∧
    (updateOp initState "Tea" "Green Tea" "water" "").2 ≠
      some RepoError.notFound ∧
    (updateOp initState "Tea" "Green Tea" "water" "").2 = none := by
  decide

/-- Claim C5 (amended): when no recipe has the old name and the submitted
name passes validation, update is a silent no-op — no error is surfaced,
the collection is unchanged, and the index rebuild and persistence still
run on the unchanged collection. -/
theorem update_missing_silent_noop (s : RepoState)
    (oldName editName ing ins : String)
    (habsent : ∀ r ∈ s.recipes, r.name ≠ oldName)
    (hne : pyStrip editName ≠ "")
    (hnodup : ¬(pyLower (pyStrip editName) ≠ pyLower oldName ∧
      s.recipes.any (fun r => pyLower r.name == pyLower (pyStrip editName)))) :
    updateOp s oldName editName ing ins =
      (⟨s.recipes, build_tree s.recipes, s.recipes⟩, none) := by
  simp only [updateOp, if_neg hne, if_neg hnodup]
  rw [replaceFirst_of_not_mem s.recipes oldName _ habsent]

/-- Concrete run of claim C5 (amended): updating "Tea" on the empty
collection is a silent no-op. -/
theorem update_missing_silent_noop_witness :
    (∀ r ∈ initState.recipes, r.name ≠ "Tea") ∧
    pyStrip "Green Tea" ≠ "" ∧
    updateOp initState "Tea" "Green Tea" "water" "" =
      (⟨[], build_tree [], []⟩, none) := by
  refine ⟨by decide, by decide, ?_⟩
  exact update_missing_silent_noop initState "Tea" "Green Tea" "water" ""
    (by decide) (by decide) (by decide)

/-- Claim C6: delete removes exactly the recipes whose stored name equals
the given name case-sensitively, never surfaces an error, always rebuilds
the index and persists the resulting collection, and deleting an absent
name leaves the collection unchanged. -/
theorem delete_exact_and_noop (s : RepoState) (name : String) :
    ((deleteOp s name).2 = none ∧
      (deleteOp s name).1.recipes = s.recipes.filter (fun r => r.name ≠ name) ∧
      (deleteOp s name).1.tree = build_tree (deleteOp s name).1.recipes ∧
      (deleteOp s name).1.saved = (deleteOp s name).1.recipes) ∧
    ((∀ r ∈ s.recipes, r.name ≠ name) →
      (deleteOp s name).1.recipes = s.recipes) := by
  refine ⟨⟨rfl, rfl, rfl, rfl⟩, ?_⟩
  intro h
  show s.recipes.filter (fun r => r.name ≠ name) = s.recipes
  rw [List.filter_eq_self]
  intro r hr
  simpa using h r hr

/-- Concrete run of claim C6: deleting "Anything" from the empty
collection is a silent no-op. -/
theorem delete_exact_and_noop_witness :
    (∀ r ∈ initState.recipes, r.name ≠ "Anything") ∧
    (deleteOp initState "Anything").2 = none ∧
    (deleteOp initState "Anything").1.recipes = initState.recipes := by
  refine ⟨by decide, (delete_exact_and_noop initState "Anything").1.1, ?_⟩
  exact (delete_exact_and_noop initState "Anything").2 (by decide)

/-- Claim C7: a proposed name that is empty after stripping makes create
fail with the invalid-name error, leaving collection, index and store
untouched. -/
theorem create_empty_name_invalid (s : RepoState) (newName ing ins : String)
    (h : pyStrip newName = "") :
    createOp s newName ing ins = (s, some RepoError.invalidName) := by
  simp [createOp, h]

/-- Concrete run of claim C7: a whitespace-only name is rejected. -/
theorem create_empty_name_invalid_witness :
    pyStrip "   " = "" ∧
    createOp initState "   " "water" "x" =
      (initState, some RepoError.invalidName) :=
  ⟨by decide, create_empty_name_invalid initState "   " "water" "x" (by decide)⟩

/-- Claim C8: searching any tree (the empty one included) for a name whose
lowercased form labels no node returns the not-found value rather than an
error. -/
theorem search_absent_returns_none (t : Tree) (q : String)
    (h : ∀ r ∈ t.toList, pyLower r.name ≠ pyLower q) :
    t.search q = none := by
  simp only [Tree.search]
  induction t with
  | leaf => rfl
  | node l v rt ihl ihr =>
    have hv : pyLower v.name ≠ pyLower q := h v (by simp [Tree.toList])
    simp only [Tree.searchLower]
    rw [if_neg hv]
    by_cases hk : pyLt (pyLower q) (pyLower v.name)
    · rw [if_pos hk]
      exact ihl (fun r hr => h r (by simp [Tree.toList, hr]))
    · rw [if_neg hk]
      exact ihr (fun r hr => h r (by simp [Tree.toList, hr]))

/-- Concrete run of claim C8: a one-node tree misses an unrelated query. -/
theorem search_absent_returns_none_witness :
    (∀ r ∈ (build_tree [⟨"Pasta", [], []⟩]).toList,
      pyLower r.name ≠ pyLower "Tea") ∧
    (build_tree [⟨"Pasta", [], []⟩]).search "Tea" = none :=
  ⟨by decide, search_absent_returns_none _ "Tea" (by decide)⟩

/-- Modelled from the spec: the shape of JSON values the store uses (§6 —
a whole-collection array of objects whose fields are a string and two
string arrays); the textual encoding itself lives in the external JSON
library behind `json.dump` / `json.load` and is not part of the source. -/
inductive JsonVal where
  | str : String → JsonVal
  | arr : List JsonVal → JsonVal
  | obj : List (String × JsonVal) → JsonVal

/-- `save_recipes_to_file` writes the whole collection: each recipe dict
becomes an object with `name`, `ingredients` and `instructions`, in
collection order. -/
def saveAll (rs : List Recipe) : JsonVal :=
  .arr (rs.map (fun r =>
    .obj [("name", .str r.name),
      ("ingredients", .arr (r.ingredients.map JsonVal.str)),
      ("instructions", .arr (r.instructions.map JsonVal.str))]))

/-- Read back an array of JSON strings. -/
def strListOfJson : List JsonVal → Option (List String)
  | [] => some []
  | .str s :: rest => (strListOfJson rest).map (fun xs => s :: xs)
  | _ => none

/-- Modelled from the spec: read back one stored recipe object (§6 — an
object with `name` a string, `ingredients` and `instructions` arrays of
strings), as the app consumes the parsed records. -/
def recipeOfJson : JsonVal → Option Recipe
  | .obj [("name", .str n), ("ingredients", .arr a), ("instructions", .arr b)] =>
    match strListOfJson a, strListOfJson b with
    | some ings, some inss => some ⟨n, ings, inss⟩
    | _, _ => none
  | _ => none

/-- Read back a list of stored recipe objects, in order. -/
def recipesOfJson : List JsonVal → Option (List Recipe)
  | [] => some []
  | j :: rest =>
    match recipeOfJson j, recipesOfJson rest with
    | some r, some rs => some (r :: rs)
    | _, _ => none

/-- Modelled from the spec: `load_recipes_from_file` reads the whole
stored array back into the recipe sequence (§6). -/
def loadAll : JsonVal → Option (List Recipe)
  | .arr items => recipesOfJson items
  | _ => none

/-- Reading back an encoded string array recovers it. -/
theorem strListOfJson_map (xs : List String) :
    strListOfJson (xs.map JsonVal.str) = some xs := by
  induction xs with
  | nil => rfl
  | cons a xs ih => simp [strListOfJson, ih]

/-- Claim C9: saving any collection and loading it back reproduces an
equal sequence of recipes — same names, ingredient lists and instruction
lists, in the same order. -/
theorem save_load_roundtrip (rs : List Recipe) :
    loadAll (saveAll rs) = some rs := by
  simp only [saveAll, loadAll]
  induction rs with
  | nil => rfl
  | cons r rs ih =>
    simp only [List.map_cons, recipesOfJson, recipeOfJson, strListOfJson_map]
    simp only [List.map_cons] at ih
    rw [ih]

/-- The normalisation of a text area as claim C10 states it: the lines of
the submitted text, each stripped of leading and trailing whitespace, with
the whitespace-only (blank) lines dropped, in their original order. -/
def claimLines (text : String) : List String :=
  ((pySplitlines text).map pyStrip).filter (fun l => l ≠ "")

/-- Filtering blank lines before stripping (as the source comprehension
does) agrees with stripping every line and dropping the empty results. -/
theorem filterMap_strip_eq (ls : List String) :
    ls.filterMap
        (fun l => if pyStrip l = "" then none else some (pyStrip l)) =
      (ls.map pyStrip).filter (fun l => l ≠ "") := by
  induction ls with
  | nil => rfl
  | cons a ls ih =>
    by_cases h : pyStrip a = ""
    · simp [h, ih]
    · simp [h, ih]

/-- The source's line normalisation equals the claim's description. -/
theorem normalizeLines_eq (text : String) :
    normalizeLines text = claimLines text :=
  filterMap_strip_eq (pySplitlines text)

/-- Claim C10: every successful create or update stores a normalised
recipe — the stripped submitted name, and as ingredients and instructions
exactly the non-blank lines of the submitted text, each stripped, in
order, with whitespace-only lines dropped. -/
theorem create_update_normalized :
    (∀ text, normalizeLines text = claimLines text) ∧
    (∀ s n i j, (createOp s n i j).2 = none →
      (createOp s n i j).1.recipes =
        s.recipes ++ [⟨pyStrip n, claimLines i, claimLines j⟩]) ∧
    (∀ s o n i j, (updateOp s o n i j).2 = none →
      (updateOp s o n i j).1.recipes =
        replaceFirst s.recipes o ⟨pyStrip n, claimLines i, claimLines j⟩) := by
  refine ⟨normalizeLines_eq, ?_, ?_⟩
  · intro s n i j h
    by_cases h1 : pyStrip n = ""
    · simp [createOp, h1] at h
    · by_cases h2 : s.recipes.any (fun r => pyLower r.name == pyLower n)
      · simp [createOp, h1, h2] at h
      · simp only [createOp, if_neg h1]
        rw [if_neg h2]
        simp [normalizeLines_eq]
  · intro s o n i j h
    by_cases h1 : pyStrip n = ""
    · simp [updateOp, h1] at h
    · by_cases h2 : pyLower (pyStrip n) ≠ pyLower o ∧
          s.recipes.any (fun r => pyLower r.name == pyLower (pyStrip n))
      · simp only [updateOp, if_neg h1, if_pos h2] at h
        cases h
      · simp only [updateOp, if_neg h1, if_neg h2]
        simp [normalizeLines_eq]

/-- Concrete run of claim C10: a create with padded name and messy text
areas stores the stripped name and the stripped non-blank lines. -/
theorem create_update_normalized_witness :
    (createOp initState "  Tea  " "  water \n   \nmilk" "Boil.\n\n  Stir.  ").2
      = none ∧
    (createOp initState "  Tea  " "  water \n   \nmilk"
        "Boil.\n\n  Stir.  ").1.recipes =
      [⟨"Tea", ["water", "milk"], ["Boil.", "Stir."]⟩] := by
  refine ⟨by decide, ?_⟩
  have h := create_update_normalized.2.1 initState "  Tea  "
    "  water \n   \nmilk" "Boil.\n\n  Stir.  " (by decide)
  rw [h]
  decide

end RecipeApp
